import Mathlib

/-!
Verification of the contributor-counting tool (`github_contributor_count.py`).

The development shallowly embeds the core of the program:
  * `is_bot` and `process_commits_and_contributors` (contributor extraction),
  * `parse_link_header` (pagination-header parsing, including its failure mode),
  * `fetchStep` / `fetchRun` (the paginated fetch loop of `fetch_commits_for_repo`,
    driven by a list of response events: one event per HTTP request),
  * `collectStep` / `process_repositories` (the orchestrator's completion-order
    collection loop and summary computation).

Python strings are modelled as Lean `String`s; the Python string operations used
by the source (`str.lower`, `str.endswith`, `str.split` on a one-character
separator, `str.strip`, slicing `[1:-1]`) are re-implemented structurally over
`String.data` so that every definition evaluates inside the kernel.
All data in scope is ASCII, where these agree with Python's semantics.
-/

namespace ContributorCount

/-- Python `s.lower()` (ASCII). -/
def pyLower (s : String) : String :=
  ⟨s.data.map Char.toLower⟩

/-- Python `s.endswith(suffix)`. -/
def pyEndsWith (s suffix : String) : Bool :=
  suffix.data.isSuffixOf s.data

/-- Python `s.split(sep)` for a one-character separator: always returns at
least one part, empty parts included. -/
def splitChar (sep : Char) : List Char → List (List Char)
  | [] => [[]]
  | c :: cs =>
    let r := splitChar sep cs
    if c = sep then [] :: r
    else
      match r with
      | [] => [[c]]
      | p :: ps => (c :: p) :: ps

/-- ASCII whitespace, as stripped by Python `str.strip()`. -/
def isPySpace (c : Char) : Bool :=
  c = ' ' || c = '\t' || c = '\n' || c = '\r' || c = '\x0b' || c = '\x0c'

/-- Python `s.strip()` over a character list. -/
def pyStrip (l : List Char) : List Char :=
  ((l.dropWhile isPySpace).reverse.dropWhile isPySpace).reverse

/-- Python `s.strip(c)` for a single character argument. -/
def pyStripChar (ch : Char) (l : List Char) : List Char :=
  ((l.dropWhile (· = ch)).reverse.dropWhile (· = ch)).reverse

/-- Python slicing `s[1:-1]` over a character list. -/
def sliceOneToLast (l : List Char) : List Char :=
  (l.drop 1).dropLast

/-! ## Data model

A commit record, restricted to the fields the program reads.
`author` models the outer `commit["author"]` object (`None`/missing/empty maps
to `none`); `commitAuthor` models `commit["commit"]["author"]` (an absent or
empty dict maps to `none`, matching the `if not author` falsiness test). -/

structure OuterAuthor where
  type : Option String
  login : Option String
deriving DecidableEq

structure InnerAuthor where
  email : Option String
  name : Option String
  date : Option String
deriving DecidableEq

structure Commit where
  author : Option OuterAuthor
  commitAuthor : Option InnerAuthor
deriving DecidableEq

/-- A deduplicated contributor entry, as stored in the `contributors` dict. -/
structure Contributor where
  name : String
  email : String
  last_commit : String
deriving DecidableEq

/-- The inner `commit.author.email` field, `none` when the inner author
metadata or the field itself is absent. -/
def innerEmail (c : Commit) : Option String :=
  match c.commitAuthor with
  | none => none
  | some a => a.email

/-- The predicate `is_bot(commit)`: outer author type is `"Bot"`, or outer login ends with
`[bot]` (case-insensitively), or inner email ends with `[bot]`
(case-insensitively). Missing fields default to `""` as in the source. -/
def is_bot (c : Commit) : Bool :=
  let outerBot :=
    match c.author with
    | none => false
    | some a =>
      a.type.getD "" == "Bot" || pyEndsWith (pyLower (a.login.getD "")) "[bot]"
  outerBot || pyEndsWith (pyLower ((innerEmail c).getD "")) "[bot]"

/-- First-match lookup in an association list, i.e. Python `d[k]` for the
dicts built here (keys are unique by construction). -/
def alookup {α : Type} (k : String) : List (String × α) → Option α
  | [] => none
  | p :: rest => if p.1 = k then some p.2 else alookup k rest

/-- Python `k in d` for an association list. -/
def hasKey {α : Type} (k : String) : List (String × α) → Bool
  | [] => false
  | p :: rest => if p.1 = k then true else hasKey k rest

/-- State of the extraction loop: the `contributors` dict (in insertion
order) and the `bots` dict's key set (insertion order; values are all `True`
and never read). -/
structure ExtractState where
  contributors : List (String × Contributor)
  bots : List String
deriving DecidableEq

/-- One iteration of the loop body of `process_commits_and_contributors`. -/
def processStep (st : ExtractState) (c : Commit) : ExtractState :=
  match c.commitAuthor with
  | none => st
  | some a =>
    let email := pyLower (a.email.getD "N/A")
    let name := a.name.getD "N/A"
    if is_bot c then
      if st.bots.contains email then st
      else { st with bots := st.bots ++ [email] }
    else
      if hasKey email st.contributors then st
      else
        { st with
          contributors :=
            st.contributors ++ [(email, ⟨name, email, a.date.getD "N/A"⟩)] }

/-- The full extraction loop, keeping both dicts. -/
def processState (commits : List Commit) : ExtractState :=
  commits.foldl processStep ⟨[], []⟩

/-- The function `process_commits_and_contributors(commits, repo, debug)`: the returned
`contributors` dict (the `repo`/`debug` arguments only affect logging). -/
def process_commits_and_contributors (commits : List Commit) :
    List (String × Contributor) :=
  (processState commits).contributors

/-- The key a commit would be filed under: the lower-cased inner email
(default `"N/A"`), or `none` when the record is skipped for missing author
metadata. -/
def commitEmailKey (c : Commit) : Option String :=
  match c.commitAuthor with
  | none => none
  | some a => some (pyLower (a.email.getD "N/A"))

/-- Returns `some a` when commit `c` has author metadata `a`, is not a bot, and is
keyed under `e`; `none` otherwise. -/
def humanHit (e : String) (c : Commit) : Option InnerAuthor :=
  match c.commitAuthor with
  | none => none
  | some a =>
    if is_bot c = false ∧ pyLower (a.email.getD "N/A") = e then some a
    else none

/-- The inner author metadata of the first commit in the list that has author
metadata, is not a bot, and is keyed under `e`. -/
def firstHumanAuthor (e : String) (commits : List Commit) : Option InnerAuthor :=
  commits.findSome? (humanHit e)

/-- First-`some` choice on options (`a` if it is `some`, else `b`). -/
def optOr {α : Type} (a b : Option α) : Option α :=
  match a with
  | some v => some v
  | none => b

/-- The contributor entry recorded from inner author metadata `a`. -/
def entryOf (a : InnerAuthor) : Contributor :=
  ⟨a.name.getD "N/A", pyLower (a.email.getD "N/A"), a.date.getD "N/A"⟩

/-! ## Link header parsing

`parse_link_header` iterates over the comma-separated parts of the header.
For each part it evaluates `section[0].strip()[1:-1]` for the URL and
`section[1].strip().split("=")[1].strip('"')` for the relation name.
`section[1]` (no `;` in the part) and `[1]` after the `=`-split (no `=`)
raise `IndexError`, which no caller catches; this is modelled by `none`. -/

/-- Parse one comma-separated part of a Link header into `(rel, url)`;
`none` models the uncaught `IndexError` on a malformed part. -/
def parseLinkPart (part : List Char) : Option (List Char × List Char) :=
  match splitChar ';' part with
  | s0 :: s1 :: _ =>
    let url := sliceOneToLast (pyStrip s0)
    match splitChar '=' (pyStrip s1) with
    | _ :: r1 :: _ => some (pyStripChar '"' r1, url)
    | _ => none
  | _ => none

/-- Sequence `Option` over a list of parses: the Python loop raises at the
first malformed part, discarding the whole result. -/
def parseLinkParts : List (List Char) → Option (List (List Char × List Char))
  | [] => some []
  | p :: ps =>
    match parseLinkPart p, parseLinkParts ps with
    | some pr, some rest => some (pr :: rest)
    | _, _ => none

/-- The function `parse_link_header(link_header)`: relation/URL pairs in order, or `none`
when a part is malformed (the `IndexError` case). -/
def parse_link_header (h : List Char) : Option (List (List Char × List Char)) :=
  parseLinkParts (splitChar ',' h)

/-- Lookup `links.get(rel)` for the dict built by `parse_link_header` — the last
assignment to a relation wins, as with a Python dict. -/
def linksGet (k : List Char) : List (List Char × List Char) → Option (List Char)
  | [] => none
  | (r, u) :: rest =>
    match linksGet k rest with
    | some v => some v
    | none => if r = k then some u else none

/-! ## The paginated fetch loop (`fetch_commits_for_repo`)

The loop is embedded as a state machine. One `FetchEvent` is the outcome of
one `requests.get` call; `fetchStep` is one iteration of the `while url:`
body; `fetchRun` drives the loop over a finite list of events. -/

/-- Outcome of one HTTP request, as the loop body distinguishes them:
404, 403 with a rate-limit reset epoch (and the current epoch at the time of
the request), a timeout, any other `RequestException` (transport errors and
`raise_for_status` statuses), or a 2xx page of commits with an optional
`Link` header. -/
inductive FetchEvent where
  | resp404
  | resp403 (resetTime now : Int)
  | timeout
  | reqError
  | respOk (commits : List Commit) (linkHeader : Option String)
deriving DecidableEq

/-- Loop state of `fetch_commits_for_repo`: the current page `url`
(`none` once pagination ends), `all_commits`, and `retry_attempts`. -/
structure FetchState where
  url : Option String
  allCommits : List Commit
  retryAttempts : Nat
deriving DecidableEq

/-- Result of one loop iteration: continue with a new state after sleeping
`slept` seconds, leave the loop returning `all_commits`, or propagate an
uncaught exception (only the `IndexError` from `parse_link_header`). -/
inductive StepResult where
  | next (s : FetchState) (slept : Int)
  | finished (commits : List Commit)
  | raised
deriving DecidableEq

/-- The relation name `"next"` that the loop follows. -/
def nextRel : List Char := "next".data

/-- One iteration of the `while url:` body of `fetch_commits_for_repo`,
given the outcome of this iteration's request. -/
def fetchStep (maxRetries : Nat) (s : FetchState) (e : FetchEvent) : StepResult :=
  match e with
  | .resp404 => .finished s.allCommits
  | .resp403 resetTime now => .next s (max 0 (resetTime - now) + 3)
  | .timeout =>
    if s.retryAttempts + 1 > maxRetries then .finished s.allCommits
    else
      .next { s with retryAttempts := s.retryAttempts + 1 }
        ((2 : Int) ^ (s.retryAttempts + 1))
  | .reqError => .finished s.allCommits
  | .respOk commits linkHeader =>
    match linkHeader with
    | none => .finished (s.allCommits ++ commits)
    | some h =>
      match parse_link_header h.data with
      | none => .raised
      | some links =>
        match linksGet nextRel links with
        | some u =>
          .next { url := some ⟨u⟩, allCommits := s.allCommits ++ commits,
                  retryAttempts := 0 } 0
        | none => .finished (s.allCommits ++ commits)

/-- The default `max_retries` value of `fetch_commits_for_repo`. -/
def defaultMaxRetries : Nat := 5

/-- Result of running the fetch loop on a finite event list. -/
inductive RunOutcome where
  | finished (commits : List Commit)
  | raised
  | outOfEvents (s : FetchState)
deriving DecidableEq

/-- Drive the `while url:` loop of `fetch_commits_for_repo` over a finite
list of request outcomes, also counting the requests issued. `outOfEvents`
marks a run whose event list ended while the loop still wanted a page. -/
def fetchRun (maxRetries : Nat) : FetchState → List FetchEvent → RunOutcome × Nat
  | s, [] =>
    match s.url with
    | none => (.finished s.allCommits, 0)
    | some _ => (.outOfEvents s, 0)
  | s, e :: es =>
    match s.url with
    | none => (.finished s.allCommits, 0)
    | some _ =>
      match fetchStep maxRetries s e with
      | .next s' _ =>
        let r := fetchRun maxRetries s' es
        (r.1, r.2 + 1)
      | .finished cs => (.finished cs, 1)
      | .raised => (.raised, 1)

/-- An event whose Link header (if any) parses without raising. -/
def eventLinksOk : FetchEvent → Bool
  | .respOk _ (some h) => (parse_link_header h.data).isSome
  | _ => true

/-- A well-formed Link header advertising a next page, as GitHub sends it. -/
def nextHeader : String := "<u>; rel=\"next\""

/-- The event list produced by `N` successful pages, every page but the last
carrying a `Link` header with a `next` relation. -/
def pageEvents : List (List Commit) → List FetchEvent
  | [] => []
  | [p] => [.respOk p none]
  | p :: ps => .respOk p (some nextHeader) :: pageEvents ps

/-! ## The orchestrator (`process_repositories`)

Each repository job runs `process_single_repository` on a worker thread; the
orchestrator collects `future.result()` in completion order. A job is
modelled by its name together with `Except`: `ok rows` when the future
returned the job's contributor rows, `error msg` when `future.result()`
re-raised an exception from the job. The input list is the completion
order. -/

/-- A row of the global result list (and of the output CSV). -/
structure Row where
  repo : String
  email : String
  name : String
  last_commit : String
deriving DecidableEq

/-- The function `process_single_repository`: extract contributors from the fetched
commits and format one row per contributor, in dict insertion order. -/
def process_single_repository (repo : String) (commits : List Commit) :
    List Row :=
  (process_commits_and_contributors commits).map fun p =>
    ⟨repo, p.2.email, p.2.name, p.2.last_commit⟩

/-- The size of the set of emails of `rows`, i.e. the number of distinct emails. -/
def distinctEmailCount (rows : List Row) : Nat :=
  ((rows.map Row.email).dedup).length

/-- Python dict assignment `m[k] = v` on an association list: replace in
place when the key exists, else append. -/
def dictSet {α : Type} (m : List (String × α)) (k : String) (v : α) :
    List (String × α) :=
  if hasKey k m then m.map (fun p => if p.1 = k then (k, v) else p)
  else m ++ [(k, v)]

/-- Aggregate state of the collection loop: `all_contributors` and
`repo_contributor_map`. -/
structure AggState where
  all_contributors : List Row
  repo_contributor_map : List (String × Nat)
deriving DecidableEq

/-- One iteration of the `as_completed` collection loop: a successful job
extends the global list and records its distinct-email count; a raising job
is caught and logged, leaving the aggregate untouched. -/
def collectStep (st : AggState) (job : String × Except String (List Row)) :
    AggState :=
  match job.2 with
  | .error _ => st
  | .ok rows =>
    { all_contributors := st.all_contributors ++ rows,
      repo_contributor_map :=
        dictSet st.repo_contributor_map job.1 (distinctEmailCount rows) }

/-- The function `process_repositories`, from the completion-order job outcomes to the
written/printed data: the global contributor list (the CSV body), the
per-repository unique-contributor map, and the total unique-contributor
count. -/
def process_repositories (jobs : List (String × Except String (List Row))) :
    List Row × List (String × Nat) × Nat :=
  let st := jobs.foldl collectStep ⟨[], []⟩
  (st.all_contributors, st.repo_contributor_map,
   distinctEmailCount st.all_contributors)

/-- The concatenation, in completion order, of the rows of the successful
jobs. -/
def flattenOks (jobs : List (String × Except String (List Row))) : List Row :=
  (jobs.filterMap (fun j => j.2.toOption)).flatten

/-! ## Concrete sample data used by counterexamples and witnesses. -/

/-- A bot commit: the outer login ends in `[bot]`. -/
def botCommitEx : Commit :=
  { author := some { type := none, login := some "dep[bot]" },
    commitAuthor := some { email := some "shared@x.com", name := some "Bot Name",
                           date := some "2024-01-02T00:00:00Z" } }

/-- A human commit carrying the same email as `botCommitEx`, with no bot
markers at all. -/
def humanCommitEx : Commit :=
  { author := none,
    commitAuthor := some { email := some "shared@x.com", name := some "Human",
                           date := some "2024-01-01T00:00:00Z" } }

/-- A commit with no inner author metadata. -/
def noAuthorCommitEx : Commit :=
  { author := none, commitAuthor := none }

/-- A commit with inner author metadata but no email field. -/
def noEmailCommitEx : Commit :=
  { author := none,
    commitAuthor := some { email := none, name := some "Alice",
                           date := some "2024-02-01T00:00:00Z" } }

/-- A second email-less commit by a distinct author. -/
def noEmailCommitEx2 : Commit :=
  { author := none,
    commitAuthor := some { email := none, name := some "Bob",
                           date := some "2024-02-02T00:00:00Z" } }

/-- Sample rows: two contributors of repository `o/a`. -/
def rowA : Row := ⟨"o/a", "dev@x.com", "Dev", "2024-01-01T00:00:00Z"⟩

def rowB : Row := ⟨"o/a", "other@x.com", "Other", "2024-01-05T00:00:00Z"⟩

/-- The email of `rowA` contributing to a second repository `o/c`. -/
def rowC : Row := ⟨"o/c", "dev@x.com", "Dev", "2024-03-01T00:00:00Z"⟩

/-! ## Association-list lemmas -/

theorem optOr_none_right {α : Type} (a : Option α) : optOr a none = a := by
  cases a <;> rfl

theorem alookup_append_single {α : Type} (e k : String) (v : α)
    (l : List (String × α)) :
    alookup e (l ++ [(k, v)]) =
      optOr (alookup e l) (if k = e then some v else none) := by
  induction l with
  | nil =>
    by_cases h : k = e <;> simp [alookup, optOr, h]
  | cons p rest ih =>
    by_cases h : p.1 = e
    · simp [alookup, h, optOr]
    · simp [alookup, h, ih]

theorem hasKey_false_alookup {α : Type} (e : String) (l : List (String × α))
    (h : hasKey e l = false) : alookup e l = none := by
  induction l with
  | nil => rfl
  | cons p rest ih =>
    by_cases hp : p.1 = e
    · simp [hasKey, hp] at h
    · simp only [alookup, hp, if_false]
      exact ih (by simpa [hasKey, hp] using h)

theorem hasKey_true_isSome {α : Type} (e : String) (l : List (String × α))
    (h : hasKey e l = true) : (alookup e l).isSome = true := by
  induction l with
  | nil => simp [hasKey] at h
  | cons p rest ih =>
    by_cases hp : p.1 = e
    · simp [alookup, hp]
    · simp only [alookup, hp, if_false]
      exact ih (by simpa [hasKey, hp] using h)

/-! ## Extraction lemmas -/

/-- A bot-classified commit never touches the `contributors` dict. -/
theorem processStep_contributors_of_bot (st : ExtractState) (c : Commit)
    (hb : is_bot c = true) :
    (processStep st c).contributors = st.contributors := by
  unfold processStep
  cases hca : c.commitAuthor with
  | none => rfl
  | some a =>
    simp only [hb, if_true]
    split <;> rfl

/-- The central extraction lemma: looking up `e` in the contributors dict
produced by folding the loop body equals the entry already present in the
accumulator, or else the entry of the first human commit keyed `e` among the
remaining commits. -/
theorem alookup_foldl_processStep (e : String) (cs : List Commit)
    (st : ExtractState) :
    alookup e (List.foldl processStep st cs).contributors =
      optOr (alookup e st.contributors) ((firstHumanAuthor e cs).map entryOf) := by
  induction cs generalizing st with
  | nil =>
    simp [firstHumanAuthor, optOr_none_right]
  | cons c cs ih =>
    rw [List.foldl_cons]
    have hfs : firstHumanAuthor e (c :: cs) =
        (match humanHit e c with
         | some a => some a
         | none => firstHumanAuthor e cs) := by
      cases hh : humanHit e c <;> simp [firstHumanAuthor, List.findSome?_cons, hh]
    cases hca : c.commitAuthor with
    | none =>
      have hstep : processStep st c = st := by simp [processStep, hca]
      have hhit : humanHit e c = none := by simp [humanHit, hca]
      rw [hstep, ih, hfs, hhit]
    | some a =>
      by_cases hb : is_bot c = true
      · have hc : (processStep st c).contributors = st.contributors :=
          processStep_contributors_of_bot st c hb
        have hhit : humanHit e c = none := by simp [humanHit, hca, hb]
        rw [ih, hc, hfs, hhit]
      · have hbf : is_bot c = false := by simpa using hb
        by_cases he : pyLower (a.email.getD "N/A") = e
        · have hhit : humanHit e c = some a := by
            simp [humanHit, hca, hbf, he]
          by_cases hk : hasKey (pyLower (a.email.getD "N/A")) st.contributors = true
          · have hstep : processStep st c = st := by
              simp [processStep, hca, hbf, hk]
            rw [hstep, ih, hfs, hhit]
            obtain ⟨v, hv⟩ := Option.isSome_iff_exists.mp
              (hasKey_true_isSome e st.contributors (he ▸ hk))
            rw [hv]
            rfl
          · have hkf : hasKey (pyLower (a.email.getD "N/A")) st.contributors = false := by
              simpa using hk
            have hstep : processStep st c =
                { st with contributors := st.contributors ++
                    [(pyLower (a.email.getD "N/A"),
                      ⟨a.name.getD "N/A", pyLower (a.email.getD "N/A"),
                       a.date.getD "N/A"⟩)] } := by
              simp [processStep, hca, hbf, hkf]
            rw [ih, hstep, hfs, hhit]
            have hnone : alookup e st.contributors = none :=
              hasKey_false_alookup e st.contributors (he ▸ hkf)
            simp [alookup_append_single, he, hnone, optOr, entryOf]
        · have hhit : humanHit e c = none := by
            simp [humanHit, hca, hbf, he]
          by_cases hk : hasKey (pyLower (a.email.getD "N/A")) st.contributors = true
          · have hstep : processStep st c = st := by
              simp [processStep, hca, hbf, hk]
            rw [hstep, ih, hfs, hhit]
          · have hkf : hasKey (pyLower (a.email.getD "N/A")) st.contributors = false := by
              simpa using hk
            have hstep : processStep st c =
                { st with contributors := st.contributors ++
                    [(pyLower (a.email.getD "N/A"),
                      ⟨a.name.getD "N/A", pyLower (a.email.getD "N/A"),
                       a.date.getD "N/A"⟩)] } := by
              simp [processStep, hca, hbf, hkf]
            rw [ih, hstep, hfs, hhit]
            simp only [alookup_append_single, if_neg he, optOr_none_right]

/-- Specialisation to the empty initial state. -/
theorem alookup_process (e : String) (cs : List Commit) :
    alookup e (process_commits_and_contributors cs) =
      (firstHumanAuthor e cs).map entryOf := by
  unfold process_commits_and_contributors processState
  rw [alookup_foldl_processStep]
  rfl

/-- When every commit keyed `e` is bot-classified, no commit is a human hit
for `e`. -/
theorem firstHumanAuthor_eq_none (e : String) (commits : List Commit)
    (h : ∀ c ∈ commits, commitEmailKey c = some e → is_bot c = true) :
    firstHumanAuthor e commits = none := by
  induction commits with
  | nil => rfl
  | cons c cs ih =>
    have hhit : humanHit e c = none := by
      unfold humanHit
      cases hca : c.commitAuthor with
      | none => rfl
      | some a =>
        by_cases he : pyLower (a.email.getD "N/A") = e
        · have hb := h c (List.mem_cons_self c cs)
            (by simp [commitEmailKey, hca, he])
          simp [hb, he]
        · simp [he]
    simp only [firstHumanAuthor, List.findSome?_cons, hhit]
    exact ih fun c' hc' hk => h c' (List.mem_cons_of_mem c hc') hk

/-! ## Claim C2 -/

/-- C2 (confirmed): for every commit sequence and every lower-cased email
`e`, the contributor entry under key `e` is exactly the name, (lower-cased)
email and commit-author date of the first commit in the sequence that has
author metadata, is not a bot, and is keyed `e` — and `none` when there is
no such commit. In particular later commits with the same email never
overwrite the recorded entry. -/
theorem c2_first_seen_wins (commits : List Commit) (e : String) :
    alookup e (process_commits_and_contributors commits) =
      (firstHumanAuthor e commits).map entryOf :=
  alookup_process e commits

/-! ## Claim C1 -/

/-- C1 (counterexample): a commit classified as a bot (login `dep[bot]`)
carrying email `shared@x.com` is followed by a commit with the same email
and no bot markers at all; the email nevertheless ends up as a key of the
resulting contributor mapping, with the later commit's name and date. The
claim says a bot-classified email never appears as a key. -/
theorem c1_counterexample :
    is_bot botCommitEx = true ∧
    is_bot humanCommitEx = false ∧
    innerEmail botCommitEx = some "shared@x.com" ∧
    innerEmail humanCommitEx = some "shared@x.com" ∧
    alookup "shared@x.com"
        (process_commits_and_contributors [botCommitEx, humanCommitEx]) =
      some ⟨"Human", "shared@x.com", "2024-01-01T00:00:00Z"⟩ := by
  decide

/-- C1 (amended): a bot-classified commit never itself adds its email to the
contributor mapping — if every commit of the sequence that is keyed under an
email `e` is classified as a bot, then `e` never appears as a key of the
resulting contributor mapping. (Bot classification is per-commit, not
persistent: the `bots` dict only deduplicates log lines, so a later commit
with the same email and no bot markers does create a contributor entry.) -/
theorem c1_bot_exclusion_amended (commits : List Commit) (e : String)
    (h : ∀ c ∈ commits, commitEmailKey c = some e → is_bot c = true) :
    alookup e (process_commits_and_contributors commits) = none := by
  rw [alookup_process, firstHumanAuthor_eq_none e commits h]
  rfl

/-- Witness for `c1_bot_exclusion_amended` at a concrete input. -/
theorem c1_witness :
    (∀ c ∈ [botCommitEx], commitEmailKey c = some "shared@x.com" →
      is_bot c = true) ∧
    alookup "shared@x.com" (process_commits_and_contributors [botCommitEx]) =
      none :=
  ⟨by decide, c1_bot_exclusion_amended [botCommitEx] "shared@x.com" (by decide)⟩

/-! ## Claim C9 -/

/-- C9 (confirmed): a commit record whose inner author metadata is absent or
empty is skipped entirely — it contributes to neither the contributor
mapping nor the bot set, and the result over the whole sequence is the same
as if the record were not there. (The embedding is total, so no exception is
raised.) -/
theorem c9_missing_author_skipped (pre post : List Commit) (c : Commit)
    (h : c.commitAuthor = none) :
    processState (pre ++ c :: post) = processState (pre ++ post) := by
  unfold processState
  rw [List.foldl_append, List.foldl_append, List.foldl_cons]
  have hstep : processStep (List.foldl processStep ⟨[], []⟩ pre) c =
      List.foldl processStep ⟨[], []⟩ pre := by
    simp [processStep, h]
  rw [hstep]

/-- Witness for `c9_missing_author_skipped` at a concrete input. -/
theorem c9_witness :
    noAuthorCommitEx.commitAuthor = none ∧
    processState ([humanCommitEx] ++ noAuthorCommitEx :: [botCommitEx]) =
      processState ([humanCommitEx] ++ [botCommitEx]) :=
  ⟨rfl, c9_missing_author_skipped [humanCommitEx] [botCommitEx]
    noAuthorCommitEx rfl⟩

/-! ## Claim C10 -/

/-- Folding commits that all lack an email (or all author metadata) over a
state already keyed `"n/a"` leaves the contributors dict unchanged. -/
theorem contributors_fold_all_na :
    ∀ (rest : List Commit) (st : ExtractState),
      (∀ c ∈ rest, innerEmail c = none) →
      hasKey "n/a" st.contributors = true →
      (List.foldl processStep st rest).contributors = st.contributors := by
  intro rest
  induction rest with
  | nil => intro st _ _; rfl
  | cons c cs ih =>
    intro st hrest hkey
    rw [List.foldl_cons]
    have hstepc : (processStep st c).contributors = st.contributors := by
      unfold processStep
      cases hca : c.commitAuthor with
      | none => rfl
      | some a =>
        have hae : a.email = none := by
          simpa [innerEmail, hca] using hrest c (List.mem_cons_self c cs)
        by_cases hb : is_bot c = true
        · simp only [hb, if_true]
          split <;> rfl
        · have hbf : is_bot c = false := by simpa using hb
          simp only [hbf, Bool.false_eq_true, if_false, hae, Option.getD_none]
          have hna : pyLower "N/A" = "n/a" := rfl
          rw [hna, hkey]
          rfl
    rw [ih (processStep st c) (fun c' hc' => hrest c' (List.mem_cons_of_mem c hc'))
      (by rw [hstepc]; exact hkey), hstepc]

/-- C10 (confirmed): a commit with inner author metadata but no email field
is keyed under the literal `"n/a"` (`"N/A"` lower-cased); every further such
commit of the sequence — even by a distinct author — collapses into that
single entry, whose name and date come from the first such commit. -/
theorem c10_missing_email_collapse (a₀ : InnerAuthor) (c₀ : Commit)
    (rest : List Commit) (h₀ : c₀.commitAuthor = some a₀)
    (he : a₀.email = none) (hb : is_bot c₀ = false)
    (hrest : ∀ c ∈ rest, innerEmail c = none) :
    process_commits_and_contributors (c₀ :: rest) =
      [("n/a", ⟨a₀.name.getD "N/A", "n/a", a₀.date.getD "N/A"⟩)] := by
  unfold process_commits_and_contributors processState
  rw [List.foldl_cons]
  have hstep : processStep ⟨[], []⟩ c₀ =
      ⟨[("n/a", ⟨a₀.name.getD "N/A", "n/a", a₀.date.getD "N/A"⟩)], []⟩ := by
    unfold processStep
    rw [h₀]
    simp only [hb, Bool.false_eq_true, if_false, he, Option.getD_none]
    rfl
  rw [hstep]
  exact contributors_fold_all_na rest _ hrest (by rfl)

/-- Witness for `c10_missing_email_collapse` at a concrete input. -/
theorem c10_witness :
    noEmailCommitEx.commitAuthor =
      some { email := none, name := some "Alice",
             date := some "2024-02-01T00:00:00Z" } ∧
    is_bot noEmailCommitEx = false ∧
    (∀ c ∈ [noEmailCommitEx2], innerEmail c = none) ∧
    process_commits_and_contributors [noEmailCommitEx, noEmailCommitEx2] =
      [("n/a", ⟨"Alice", "n/a", "2024-02-01T00:00:00Z"⟩)] :=
  ⟨rfl, rfl, by decide,
    c10_missing_email_collapse
      { email := none, name := some "Alice", date := some "2024-02-01T00:00:00Z" }
      noEmailCommitEx [noEmailCommitEx2] rfl rfl rfl (by decide)⟩

/-! ## Fetch-loop lemmas -/

/-- An iteration whose Link header (if any) parses never raises. -/
theorem fetchStep_ne_raised (m : Nat) (s : FetchState) (e : FetchEvent)
    (hok : eventLinksOk e = true) : fetchStep m s e ≠ .raised := by
  cases e with
  | resp404 => simp [fetchStep]
  | resp403 r t => simp [fetchStep]
  | timeout =>
    simp only [fetchStep]
    split <;> simp
  | reqError => simp [fetchStep]
  | respOk cs lnk =>
    cases lnk with
    | none => simp [fetchStep]
    | some h2 =>
      simp only [eventLinksOk] at hok
      obtain ⟨links, hl⟩ := Option.isSome_iff_exists.mp hok
      simp only [fetchStep, hl]
      cases linksGet nextRel links <;> simp

/-! ## Claim C3 -/

/-- C3 (counterexample): a successful response carrying the Link header
`"foo"` — a segment with no `;` — makes `parse_link_header` raise an
`IndexError` that escapes `fetch_commits_for_repo`, discarding the
accumulated commits. The claim says the walker never raises past its
boundary for arbitrary Link-header values. -/
theorem c3_counterexample :
    (fetchRun 5 ⟨some "https://api.github.com/repos/o/r/commits", [], 0⟩
        [.respOk [botCommitEx] (some "foo")]).1 = RunOutcome.raised := by
  decide

/-- C3 (amended): for every response sequence made of 404s, 403s, timeouts,
transport errors, and successful pages whose Link headers (when present)
are well formed — every comma-separated segment has a `;` and a `=` after
it — the walker never raises past its boundary: it either leaves the loop
returning the accumulated commit list or is still awaiting the next page
when the event sequence ends. -/
theorem c3_no_raise (m : Nat) (s : FetchState) (es : List FetchEvent)
    (h : ∀ e ∈ es, eventLinksOk e = true) :
    (fetchRun m s es).1 ≠ RunOutcome.raised := by
  induction es generalizing s with
  | nil =>
    obtain ⟨su, sc, sk⟩ := s
    cases su <;> simp [fetchRun]
  | cons e es ih =>
    obtain ⟨su, sc, sk⟩ := s
    cases su with
    | none => simp [fetchRun]
    | some u =>
      cases hstep : fetchStep m ⟨some u, sc, sk⟩ e with
      | next s' z =>
        simp only [fetchRun, hstep]
        exact ih s' fun e' he' => h e' (List.mem_cons_of_mem e he')
      | finished cs => simp [fetchRun, hstep]
      | raised =>
        exact absurd hstep
          (fetchStep_ne_raised m _ e (h e (List.mem_cons_self e es)))

/-- Witness for `c3_no_raise` at a concrete input. -/
theorem c3_witness :
    (∀ e ∈ [FetchEvent.resp404], eventLinksOk e = true) ∧
    (fetchRun 5 ⟨some "x", [], 0⟩ [.resp404]).1 ≠ RunOutcome.raised :=
  ⟨by decide, c3_no_raise 5 ⟨some "x", [], 0⟩ [.resp404] (by decide)⟩

/-! ## Claim C4 -/

/-- C4 (confirmed): a 403 response with reset epoch `r` arriving at epoch
`t` makes the loop sleep exactly `max 0 (r - t) + 3` seconds and re-enter
the iteration with the state unchanged — same page URL, same accumulated
commits, same (un-incremented) timeout-retry counter; and a run of any
number `n` of consecutive 403s issues all `n` requests without ever leaving
the loop, so rate-limit retries are unbounded in attempt count. -/
theorem c4_rate_limit (m sk : Nat) (u : String) (sc : List Commit)
    (r t : Int) (n : Nat) :
    fetchStep m ⟨some u, sc, sk⟩ (.resp403 r t) =
      .next ⟨some u, sc, sk⟩ (max 0 (r - t) + 3) ∧
    fetchRun m ⟨some u, sc, sk⟩ (List.replicate n (.resp403 r t)) =
      (.outOfEvents ⟨some u, sc, sk⟩, n) := by
  refine ⟨rfl, ?_⟩
  induction n with
  | zero => rfl
  | succ n ih =>
    rw [List.replicate_succ]
    have hiter : fetchRun m ⟨some u, sc, sk⟩
        (.resp403 r t :: List.replicate n (.resp403 r t)) =
        ((fetchRun m ⟨some u, sc, sk⟩ (List.replicate n (.resp403 r t))).1,
         (fetchRun m ⟨some u, sc, sk⟩ (List.replicate n (.resp403 r t))).2 + 1) :=
      rfl
    rw [hiter, ih]

/-! ## Claim C5 -/

/-- C5 (confirmed): (i) the `k+1`-st consecutive timeout, while within the
retry budget (`k + 1 ≤ maxRetries`, default 5), re-enters the loop with the
counter incremented to `k+1` after sleeping `2 ^ (k+1)` seconds — so a
timeout right after a success (counter 0) restarts backoff at `2^1`;
(ii) once the count of consecutive timeouts exceeds the budget the walker
leaves the loop returning the commits accumulated so far; (iii) every
successful fetch that continues to a next page resets the consecutive-
timeout counter to zero. -/
theorem c5_timeout_backoff (m k₁ k₂ : Nat) (u₁ u₂ : String)
    (cs₁ cs₂ cs₃ : List Commit) (es : List FetchEvent) (s₃ : FetchState)
    (lnk₃ : Option String) (s₃' : FetchState) (z₃ : Int)
    (h₁ : k₁ + 1 ≤ m) (h₂ : k₂ + 1 > m)
    (h₃ : fetchStep m s₃ (.respOk cs₃ lnk₃) = .next s₃' z₃) :
    fetchStep m ⟨some u₁, cs₁, k₁⟩ .timeout =
      .next ⟨some u₁, cs₁, k₁ + 1⟩ ((2 : Int) ^ (k₁ + 1)) ∧
    fetchRun m ⟨some u₂, cs₂, k₂⟩ (.timeout :: es) = (.finished cs₂, 1) ∧
    s₃'.retryAttempts = 0 := by
  refine ⟨?_, ?_, ?_⟩
  · simp only [fetchStep]
    rw [if_neg (Nat.not_lt.mpr h₁)]
  · have hstep : fetchStep m ⟨some u₂, cs₂, k₂⟩ .timeout = .finished cs₂ := by
      simp only [fetchStep]
      rw [if_pos h₂]
    simp only [fetchRun, hstep]
  · cases lnk₃ with
    | none => simp [fetchStep] at h₃
    | some hh =>
      cases hp : parse_link_header hh.data with
      | none => simp [fetchStep, hp] at h₃
      | some links =>
        cases hg : linksGet nextRel links with
        | none => simp [fetchStep, hp, hg] at h₃
        | some u' =>
          simp only [fetchStep, hp, hg, StepResult.next.injEq] at h₃
          rw [← h₃.1]

/-- Witness for `c5_timeout_backoff` at concrete inputs. -/
theorem c5_witness :
    fetchStep 5 ⟨some "a", [], 0⟩ .timeout =
      .next ⟨some "a", [], 0 + 1⟩ ((2 : Int) ^ (0 + 1)) ∧
    fetchRun 5 ⟨some "b", [botCommitEx], 5⟩ (.timeout :: []) =
      (.finished [botCommitEx], 1) ∧
    (⟨some "u", [], 0⟩ : FetchState).retryAttempts = 0 :=
  c5_timeout_backoff 5 0 5 "a" "b" [] [botCommitEx] [] [] ⟨some "x", [], 3⟩
    (some nextHeader) ⟨some "u", [], 0⟩ 0 (by decide) (by decide) (by decide)

/-! ## Claim C6 -/

/-- A successful page whose Link header is `nextHeader` continues to the
page `"u"` with the commits appended and the retry counter reset. -/
theorem fetchStep_nextHeader (m : Nat) (s : FetchState) (p : List Commit) :
    fetchStep m s (.respOk p (some nextHeader)) =
      .next ⟨some "u", s.allCommits ++ p, 0⟩ 0 := rfl

/-- Running the walker on `N` pages, each but the last advertising a next
page, performs exactly `N` fetches and accumulates the pages in order. -/
theorem pageRun (m : Nat) :
    ∀ (pages : List (List Commit)) (u : String) (cs₀ : List Commit) (k : Nat),
      pages ≠ [] →
      fetchRun m ⟨some u, cs₀, k⟩ (pageEvents pages) =
        (.finished (cs₀ ++ pages.flatten), pages.length) := by
  intro pages
  induction pages with
  | nil => intro u cs₀ k hne; exact absurd rfl hne
  | cons p ps ih =>
    intro u cs₀ k _
    cases ps with
    | nil => simp [pageEvents, fetchRun, fetchStep]
    | cons q rest =>
      have hiter : fetchRun m ⟨some u, cs₀, k⟩ (pageEvents (p :: q :: rest)) =
          ((fetchRun m ⟨some "u", cs₀ ++ p, 0⟩ (pageEvents (q :: rest))).1,
           (fetchRun m ⟨some "u", cs₀ ++ p, 0⟩ (pageEvents (q :: rest))).2 + 1) :=
        rfl
      rw [hiter, ih "u" (cs₀ ++ p) 0 (by simp)]
      simp [List.append_assoc]

/-- C6 (confirmed): a successful response with no Link header ends the walk
after that single fetch, returning the accumulated commits plus that page;
and for `N` pages each advertising a next cursor except the last, the walker
performs exactly `N` fetches and accumulates all pages' records in order. -/
theorem c6_pagination (m k sk : Nat) (u u₁ : String)
    (cs cs₀ sc : List Commit) (es : List FetchEvent)
    (pages : List (List Commit)) (hp : pages ≠ []) :
    fetchRun m ⟨some u₁, sc, sk⟩ (.respOk cs none :: es) =
      (.finished (sc ++ cs), 1) ∧
    fetchRun m ⟨some u, cs₀, k⟩ (pageEvents pages) =
      (.finished (cs₀ ++ pages.flatten), pages.length) :=
  ⟨rfl, pageRun m pages u cs₀ k hp⟩

/-- Witness for `c6_pagination` at concrete inputs. -/
theorem c6_witness :
    fetchRun 5 ⟨some "a", [], 2⟩ (.respOk [botCommitEx] none :: []) =
      (.finished ([] ++ [botCommitEx]), 1) ∧
    fetchRun 5 ⟨some "s", [], 0⟩
        (pageEvents [[botCommitEx], [humanCommitEx]]) =
      (.finished ([] ++ [[botCommitEx], [humanCommitEx]].flatten),
       [[botCommitEx], [humanCommitEx]].length) :=
  c6_pagination 5 0 2 "s" "a" [botCommitEx] [] [] []
    [[botCommitEx], [humanCommitEx]] (by decide)

/-! ## Orchestrator lemmas -/

/-- The global contributor list built by the collection loop is the initial
list followed by the successful jobs' rows, in completion order. -/
theorem foldl_collect_all :
    ∀ (jobs : List (String × Except String (List Row))) (st : AggState),
      (List.foldl collectStep st jobs).all_contributors =
        st.all_contributors ++ flattenOks jobs := by
  intro jobs
  induction jobs with
  | nil => intro st; simp [flattenOks]
  | cons j js ih =>
    intro st
    rw [List.foldl_cons, ih]
    cases hj : j.2 with
    | error msg =>
      simp [collectStep, hj, flattenOks, List.filterMap_cons, Except.toOption]
    | ok rows =>
      simp [collectStep, hj, flattenOks, List.filterMap_cons, Except.toOption,
        List.append_assoc]

theorem flattenOks_append (xs ys : List (String × Except String (List Row))) :
    flattenOks (xs ++ ys) = flattenOks xs ++ flattenOks ys := by
  simp [flattenOks, List.filterMap_append]

theorem flattenOks_cons_ok (r : String) (rows : List Row)
    (l : List (String × Except String (List Row))) :
    flattenOks ((r, Except.ok rows) :: l) = rows ++ flattenOks l := by
  simp [flattenOks, List.filterMap_cons, Except.toOption]

/-- Replacing the value at an existing key makes lookup return it. -/
theorem alookup_map_replace {α : Type} (k : String) (v : α) :
    ∀ (m : List (String × α)), hasKey k m = true →
      alookup k (m.map (fun p => if p.1 = k then (k, v) else p)) = some v := by
  intro m
  induction m with
  | nil => intro h; simp [hasKey] at h
  | cons p rest ih =>
    intro h
    by_cases hp : p.1 = k
    · simp [alookup, hp]
    · simp only [List.map_cons, if_neg hp, alookup]
      exact ih (by simpa [hasKey, hp] using h)

/-- Python dict assignment then lookup of the same key. -/
theorem alookup_dictSet_self {α : Type} (m : List (String × α)) (k : String)
    (v : α) : alookup k (dictSet m k v) = some v := by
  unfold dictSet
  by_cases h : hasKey k m = true
  · rw [if_pos h]
    exact alookup_map_replace k v m h
  · have hf : hasKey k m = false := by simpa using h
    rw [if_neg (by simp [hf]), alookup_append_single,
      hasKey_false_alookup k m hf]
    simp [optOr]

/-- Python dict assignment leaves lookups of other keys unchanged. -/
theorem alookup_dictSet_ne {α : Type} (k k' : String) (v : α) (hne : k' ≠ k) :
    ∀ (m : List (String × α)), alookup k (dictSet m k' v) = alookup k m := by
  have hmap : ∀ (m : List (String × α)),
      alookup k (m.map (fun p => if p.1 = k' then (k', v) else p)) =
        alookup k m := by
    intro m
    induction m with
    | nil => rfl
    | cons p rest ih =>
      by_cases hp : p.1 = k'
      · simp [alookup, hp, hne, ih]
      · by_cases hk : p.1 = k <;> simp [alookup, hp, hk, ih, Ne.symm hne]
  intro m
  unfold dictSet
  by_cases h : hasKey k' m = true
  · rw [if_pos h]
    exact hmap m
  · rw [if_neg (by simpa using h), alookup_append_single, if_neg hne]
    exact optOr_none_right _

/-- Jobs not named `r` never change what the summary map records for `r`. -/
theorem alookup_foldl_collect_not_mem (r : String) :
    ∀ (jobs : List (String × Except String (List Row))) (st : AggState),
      r ∉ jobs.map Prod.fst →
      alookup r (List.foldl collectStep st jobs).repo_contributor_map =
        alookup r st.repo_contributor_map := by
  intro jobs
  induction jobs with
  | nil => intro st _; rfl
  | cons j js ih =>
    intro st hnm
    have hj1 : j.1 ≠ r := fun hcontra => hnm (by simp [hcontra])
    rw [List.foldl_cons, ih (collectStep st j)
      (fun hm => hnm (List.mem_cons_of_mem _ hm))]
    cases hj : j.2 with
    | error msg => simp [collectStep, hj]
    | ok rows => simp [collectStep, hj, alookup_dictSet_ne r j.1 _ hj1]

/-- With distinct job names, the summary map records, for each successful
job, the number of distinct emails among that job's own rows. -/
theorem alookup_foldl_collect_mem (r : String) (rows : List Row) :
    ∀ (jobs : List (String × Except String (List Row))) (st : AggState),
      (jobs.map Prod.fst).Nodup →
      (r, Except.ok rows) ∈ jobs →
      alookup r (List.foldl collectStep st jobs).repo_contributor_map =
        some (distinctEmailCount rows) := by
  intro jobs
  induction jobs with
  | nil => intro st _ hmem; simp at hmem
  | cons j js ih =>
    intro st hnd hmem
    rw [List.foldl_cons]
    simp only [List.map_cons, List.nodup_cons] at hnd
    rcases List.mem_cons.mp hmem with heq | hmem'
    · have hnotin : r ∉ js.map Prod.fst := by
        have h1 := hnd.1
        rw [← heq] at h1
        exact h1
      rw [alookup_foldl_collect_not_mem r js _ hnotin, ← heq]
      simp only [collectStep]
      exact alookup_dictSet_self _ _ _
    · exact ih (collectStep st j) hnd.2 hmem'

/-- A row set containing email `e` contributes at least one filtered row. -/
theorem one_le_filter_email (e : String) (rows : List Row)
    (h : e ∈ rows.map Row.email) :
    1 ≤ (rows.filter (fun row => row.email == e)).length := by
  obtain ⟨row, hrow, heq⟩ := List.mem_map.mp h
  have hmem : row ∈ rows.filter (fun row => row.email == e) :=
    List.mem_filter.mpr ⟨hrow, by simp [heq]⟩
  exact List.length_pos.mpr (List.ne_nil_of_mem hmem)

/-! ## Claim C7 -/

/-- C7 (confirmed): a repository job whose future re-raised an exception is
caught by the collection loop and excluded from both the merged contributor
list and the per-repository count map; the run's entire output — merged
list, summary map, and total — is exactly what the same completion order
without the failing job produces, and the (total) orchestrator always
completes and produces it. -/
theorem c7_failed_job_excluded
    (pre post : List (String × Except String (List Row)))
    (r msg : String) :
    process_repositories (pre ++ (r, Except.error msg) :: post) =
      process_repositories (pre ++ post) := by
  simp only [process_repositories, List.foldl_append, List.foldl_cons]
  rfl

/-! ## Claim C8 -/

/-- C8 (confirmed): (i) the merged global output is exactly the
concatenation of the successful jobs' row lists, and the global
unique-contributor total is the number of distinct emails across that full
merged list (an email shared by several repositories counts once);
(ii) with distinct repository names, each repository's summary count is the
number of distinct emails in that repository's own result; (iii) an email
occurring in the results of two different repositories contributes at least
two separate rows to the merged output. -/
theorem c8_merge_and_counts
    (jobs : List (String × Except String (List Row))) (r : String)
    (rows : List Row)
    (pre mid post : List (String × Except String (List Row)))
    (r₁ r₂ : String) (rows₁ rows₂ : List Row) (e : String)
    (hnd : (jobs.map Prod.fst).Nodup) (hmem : (r, Except.ok rows) ∈ jobs)
    (_hr : r₁ ≠ r₂)
    (he₁ : e ∈ rows₁.map Row.email) (he₂ : e ∈ rows₂.map Row.email) :
    (process_repositories jobs).1 = flattenOks jobs ∧
    (process_repositories jobs).2.2 = distinctEmailCount (flattenOks jobs) ∧
    alookup r (process_repositories jobs).2.1 =
      some (distinctEmailCount rows) ∧
    2 ≤ ((process_repositories
        (pre ++ (r₁, Except.ok rows₁) :: mid ++ (r₂, Except.ok rows₂) :: post)).1.filter
          (fun row => row.email == e)).length := by
  refine ⟨?_, ?_, ?_, ?_⟩
  · simp [process_repositories, foldl_collect_all]
  · simp [process_repositories, foldl_collect_all]
  · simp only [process_repositories]
    exact alookup_foldl_collect_mem r rows jobs ⟨[], []⟩ hnd hmem
  · have h0 : (process_repositories
        (pre ++ (r₁, Except.ok rows₁) :: mid ++ (r₂, Except.ok rows₂) :: post)).1 =
        flattenOks
          (pre ++ (r₁, Except.ok rows₁) :: mid ++ (r₂, Except.ok rows₂) :: post) := by
      show (List.foldl collectStep ⟨[], []⟩
          (pre ++ (r₁, Except.ok rows₁) :: mid ++ (r₂, Except.ok rows₂) :: post)).all_contributors =
        flattenOks
          (pre ++ (r₁, Except.ok rows₁) :: mid ++ (r₂, Except.ok rows₂) :: post)
      rw [foldl_collect_all]
      rfl
    rw [h0, flattenOks_append, flattenOks_cons_ok, flattenOks_append,
      flattenOks_cons_ok]
    simp only [List.filter_append, List.length_append]
    have g₁ := one_le_filter_email e rows₁ he₁
    have g₂ := one_le_filter_email e rows₂ he₂
    omega

/-- Witness for `c8_merge_and_counts` at concrete inputs. -/
theorem c8_witness :
    (process_repositories [("o/a", Except.ok [rowA, rowB]),
        ("o/b", Except.error "boom"), ("o/c", Except.ok [rowC])]).1 =
      flattenOks [("o/a", Except.ok [rowA, rowB]),
        ("o/b", Except.error "boom"), ("o/c", Except.ok [rowC])] ∧
    (process_repositories [("o/a", Except.ok [rowA, rowB]),
        ("o/b", Except.error "boom"), ("o/c", Except.ok [rowC])]).2.2 =
      distinctEmailCount (flattenOks [("o/a", Except.ok [rowA, rowB]),
        ("o/b", Except.error "boom"), ("o/c", Except.ok [rowC])]) ∧
    alookup "o/a" (process_repositories [("o/a", Except.ok [rowA, rowB]),
        ("o/b", Except.error "boom"), ("o/c", Except.ok [rowC])]).2.1 =
      some (distinctEmailCount [rowA, rowB]) ∧
    2 ≤ ((process_repositories
        ([] ++ ("o/a", Except.ok [rowA, rowB]) ::
          [("o/b", Except.error "boom")] ++
            ("o/c", Except.ok [rowC]) :: [])).1.filter
          (fun row => row.email == "dev@x.com")).length :=
  c8_merge_and_counts
    [("o/a", Except.ok [rowA, rowB]), ("o/b", Except.error "boom"),
     ("o/c", Except.ok [rowC])]
    "o/a" [rowA, rowB] [] [("o/b", Except.error "boom")] [] "o/a" "o/c"
    [rowA, rowB] [rowC] "dev@x.com" (by decide) (List.mem_cons_self _ _)
    (by decide) (by decide) (by decide)

end ContributorCount

